import Mathlib

/-!
Verification of the ingestion / normalization / aggregation pipeline of
`app.py` (airline-complaint dashboard).

Python strings are modelled as lists of Unicode code points (`PyStr`).
The Unicode operations used by the source (`str.lower`, `str.strip`,
`str.isalnum`, `unicodedata.normalize("NFKD", ·)`, `unicodedata.combining`)
are modelled on the fragment of Unicode the data actually inhabits:
ASCII plus the Latin-1 letters (the Spanish alphabet in particular).
Outside the tables below every code point is its own NFKD decomposition,
is not combining, and is unchanged by lower-casing, matching Unicode for
all code points this dashboard's column names and category values use.
-/

/-- A Python `str`, as its list of Unicode code points. -/
abbrev PyStr := List Nat

/-- Code points of a Lean string literal (used to write concrete `PyStr`s). -/
def strCp (s : String) : PyStr := s.data.map Char.toNat

/-- `str.strip` whitespace set: space, tab, LF, VT, FF, CR, NBSP. -/
def isSpaceCp (n : Nat) : Bool :=
  n == 32 || n == 9 || n == 10 || n == 11 || n == 12 || n == 13 || n == 160

/-- `str.lower`, pointwise: ASCII A–Z and Latin-1 À–Þ (except ×) add 32. -/
def lowerCp (n : Nat) : Nat :=
  if 65 ≤ n ∧ n ≤ 90 then n + 32
  else if 192 ≤ n ∧ n ≤ 222 ∧ n ≠ 215 then n + 32
  else n

/-- `unicodedata.combining(c) != 0`: the combining diacritical marks block. -/
def combiningCp (n : Nat) : Bool := 768 ≤ n && n ≤ 879

/-- NFKD decompositions of the Latin-1 code points that decompose
(lower-case accented letters, NBSP, ordinal and superscript signs). -/
def nfkdTable : List (Nat × List Nat) :=
  [(160, [32]), (170, [97]), (178, [50]), (179, [51]), (185, [49]), (186, [111]),
   (224, [97, 768]), (225, [97, 769]), (226, [97, 770]), (227, [97, 771]),
   (228, [97, 776]), (229, [97, 778]), (231, [99, 807]),
   (232, [101, 768]), (233, [101, 769]), (234, [101, 770]), (235, [101, 776]),
   (236, [105, 768]), (237, [105, 769]), (238, [105, 770]), (239, [105, 776]),
   (241, [110, 771]),
   (242, [111, 768]), (243, [111, 769]), (244, [111, 770]), (245, [111, 771]),
   (246, [111, 776]),
   (249, [117, 768]), (250, [117, 769]), (251, [117, 770]), (252, [117, 776]),
   (253, [121, 769]), (255, [121, 776])]

/-- `unicodedata.normalize("NFKD", ·)`, pointwise. -/
def nfkdCp (n : Nat) : List Nat := ((nfkdTable.lookup n).getD [n])

/-- `str.isalnum`, pointwise: digits, ASCII letters, Latin-1 letters and
the alphanumeric signs ª ² ³ µ ¹ º (× and ÷ are not alphanumeric). -/
def isAlnumCp (n : Nat) : Bool :=
  (48 ≤ n && n ≤ 57) || (65 ≤ n && n ≤ 90) || (97 ≤ n && n ≤ 122) ||
  n == 170 || n == 178 || n == 179 || n == 181 || n == 185 || n == 186 ||
  (192 ≤ n && n ≤ 255 && n != 215 && n != 247)

/-- `str.strip()`: drop leading and trailing whitespace. -/
def pyStrip (s : PyStr) : PyStr :=
  ((s.dropWhile isSpaceCp).reverse.dropWhile isSpaceCp).reverse

/-- `str.lower()`. -/
def pyLower (s : PyStr) : PyStr := s.map lowerCp

/-- `_normalize_text` (app.py:40-47): `None` gives `""`; otherwise strip,
lower-case, NFKD-decompose, and drop combining marks. -/
def _normalize_text (s : Option PyStr) : PyStr :=
  match s with
  | none => []
  | some s => (((pyLower (pyStrip s)).flatMap nfkdCp).filter (fun c => !combiningCp c))

/-- `s.split("_")` (Python semantics: `"".split("_") == [""]`). -/
def splitUnders : PyStr → List PyStr
  | [] => [[]]
  | c :: rest =>
    if c == 95 then [] :: splitUnders rest
    else
      match splitUnders rest with
      | [] => [[c]]
      | seg :: segs => (c :: seg) :: segs

/-- `"_".join(segs)`. -/
def joinUnders : List PyStr → PyStr
  | [] => []
  | [seg] => seg
  | seg :: rest => seg ++ 95 :: joinUnders rest

/-- `"_".join(filter(None, s.split("_")))`: collapse runs of underscores and
drop leading/trailing ones. -/
def collapseUnders (s : PyStr) : PyStr :=
  joinUnders ((splitUnders s).filter (fun seg => !seg.isEmpty))

/-- The synonym table of `_normalize_colname` (app.py:56-74). -/
def synonyms : List (PyStr × PyStr) :=
  [(strCp ("aerolinea"), strCp ("aerolinea")),
   (strCp ("aerolineas"), strCp ("aerolinea")),
   (strCp ("aerolinea_nombre"), strCp ("aerolinea")),
   (strCp ("categoria"), strCp ("categoria")),
   (strCp ("categorias"), strCp ("categoria")),
   (strCp ("origen"), strCp ("origen")),
   (strCp ("destino"), strCp ("destino")),
   (strCp ("fecha"), strCp ("fecha")),
   (strCp ("titulo"), strCp ("titulo")),
   (strCp ("url"), strCp ("url")),
   (strCp ("nid"), strCp ("nid")),
   (strCp ("tramo"), strCp ("tramo")),
   (strCp ("tipo_tramo"), strCp ("tramo")),
   (strCp ("nacional_internacional"), strCp ("tramo")),
   (strCp ("internacional"), strCp ("internacional")),
   (strCp ("es_internacional"), strCp ("internacional"))]

/-- app.py:53 — `"".join(ch if ch.isalnum() else "_" for ch in s)`. -/
def underscorify (s : PyStr) : PyStr :=
  s.map (fun c => if isAlnumCp c then c else 95)

/-- The canonical label of `_normalize_colname` before the synonym lookup
(app.py:51-54). -/
def canonOf (name : PyStr) : PyStr :=
  collapseUnders (underscorify (_normalize_text (some name)))

/-- `_normalize_colname` (app.py:50-75): normalize the text, replace
non-alphanumeric characters by underscores, collapse underscores, then map
through the synonym table. -/
def _normalize_colname (name : PyStr) : PyStr :=
  ((synonyms.lookup (canonOf name)).getD (canonOf name))

/-- A code point fixed by every stage of the text-normalization pipeline:
unchanged by lower-casing, its own NFKD decomposition, not a combining
mark, and not whitespace. -/
def canonCp (n : Nat) : Prop :=
  lowerCp n = n ∧ nfkdCp n = [n] ∧ combiningCp n = false ∧ isSpaceCp n = false

instance : DecidablePred canonCp := fun n => by
  unfold canonCp
  infer_instance

/-- A cell value of the table: pandas missing marker (`np.nan`/`NaT`),
a string, a number, or a parsed datetime (abstracted as a day number). -/
inductive Value where
  | na : Value
  | str : PyStr → Value
  | num : Int → Value
  | date : Nat → Value
deriving DecidableEq

/-- A DataFrame, column-major: ordered (column name, cell values) pairs. -/
abbrev DF := List (PyStr × List Value)

def dfCols (df : DF) : List PyStr := df.map Prod.fst

/-- `len(df)` (all columns of a DataFrame have the same length). -/
def nRows (df : DF) : Nat :=
  match df with
  | [] => 0
  | c :: _ => c.2.length

def colFecha : PyStr := strCp ("fecha")
def colCategoria : PyStr := strCp ("categoria")
def colAerolinea : PyStr := strCp ("aerolinea")
def colOrigen : PyStr := strCp ("origen")
def colDestino : PyStr := strCp ("destino")
def colTitulo : PyStr := strCp ("titulo")
def colUrl : PyStr := strCp ("url")
def colNid : PyStr := strCp ("nid")

/-- app.py:87 — `df.columns = [_normalize_colname(c) for c in df.columns]`. -/
def renameCols (df : DF) : DF :=
  df.map (fun col => (_normalize_colname col.1, col.2))

/-- `pd.to_datetime(·, errors="coerce")`, cell-wise: the parser is abstract
(a parameter); a cell it cannot interpret becomes the missing marker
instead of raising. -/
def toDatetimeCoerce (parse : Value → Option Nat) (v : Value) : Value :=
  match parse v with
  | some d => Value.date d
  | none => Value.na

/-- app.py:90-91 — parse the `fecha` column as datetime when it exists. -/
def coerceFecha (parse : Value → Option Nat) (df : DF) : DF :=
  if colFecha ∈ dfCols df then
    df.map (fun col =>
      if col.1 = colFecha then (col.1, col.2.map (toDatetimeCoerce parse)) else col)
  else df

/-- app.py:94 — the columns synthesized when absent (note: `fecha` is not
in this list). -/
def expectedCols : List PyStr :=
  [colCategoria, colAerolinea, colOrigen, colDestino, colTitulo, colUrl, colNid]

/-- One step of app.py:94-96 — `if col not in df.columns: df[col] = np.nan`. -/
def ensureStep (n : Nat) (d : DF) (col : PyStr) : DF :=
  if col ∈ dfCols d then d else d ++ [(col, List.replicate n Value.na)]

/-- app.py:93-96 — synthesize each missing expected column as all-missing. -/
def ensureCols (n : Nat) (df : DF) : DF :=
  expectedCols.foldl (ensureStep n) df

/-- `str(n)` for a natural number. -/
def natToCp (n : Nat) : PyStr := (Nat.toDigits 10 n).map Char.toNat

/-- `str(x)` for a cell: missing renders as the text `nan`; numbers and
dates render as digit strings (never equal to `nan`). -/
def pyValueStr (v : Value) : PyStr :=
  match v with
  | .na => strCp ("nan")
  | .str s => s
  | .num n => if n < 0 then 45 :: natToCp n.natAbs else natToCp n.natAbs
  | .date d => natToCp d

/-- app.py:101-106, cell-wise — `.astype(str)`, then `.replace({"nan": np.nan})`
(exact match, before stripping), then strip strings. -/
def cleanVal (v : Value) : Value :=
  let s := pyValueStr v
  if s = strCp ("nan") then Value.na else Value.str (pyStrip s)

/-- The free-text core fields cleaned at app.py:99. -/
def textCols : List PyStr := [colCategoria, colAerolinea, colOrigen, colDestino]

/-- app.py:98-106 — light text cleanup of the free-text core fields. -/
def cleanTextCols (df : DF) : DF :=
  df.map (fun col =>
    if col.1 ∈ textCols then (col.1, col.2.map cleanVal) else col)

/-- `load_df` (app.py:79-113), from the parsed raw table onward: normalize
column names, coerce `fecha`, synthesize missing expected columns, clean
text fields.  The final cast of `categoria`/`aerolinea` to the pandas
`category` dtype (app.py:109-111) changes the storage encoding only, not
any cell value, so it is the identity in this value-level model. -/
def load_df (parse : Value → Option Nat) (df : DF) : DF :=
  let df1 := renameCols df
  let df2 := coerceFecha parse df1
  let df3 := ensureCols (nRows df2) df2
  cleanTextCols df3

/-- A row of the canonical table, restricted to the fields the sidebar
filters touch (app.py:232-241). -/
structure FilterRow where
  aerolinea : Option PyStr
  categoria : Option PyStr
  fecha : Option Nat
deriving DecidableEq

/-- app.py:232-241 — the sequential filter block: `isin` on airline when the
selection is nonempty, `isin` on category when nonempty, then the closed
date interval when a 2-element range is set.  `isin` and the date
comparisons are `False` on missing cells, so such rows drop out. -/
def applyFilters (aerSel catSel : List PyStr) (rango : Option (Nat × Nat))
    (rows : List FilterRow) : List FilterRow :=
  let r1 :=
    if aerSel = [] then rows
    else rows.filter (fun r =>
      match r.aerolinea with
      | some a => decide (a ∈ aerSel)
      | none => false)
  let r2 :=
    if catSel = [] then r1
    else r1.filter (fun r =>
      match r.categoria with
      | some c => decide (c ∈ catSel)
      | none => false)
  match rango with
  | some (lo, hi) =>
    r2.filter (fun r =>
      match r.fecha with
      | some d => decide (lo ≤ d) && decide (d ≤ hi)
      | none => false)
  | none => r2

/-- Python's substring test `t in s`. -/
def containsCp (t : PyStr) : PyStr → Bool
  | [] => t.isEmpty
  | b :: s => t.isPrefixOf (b :: s) || containsCp t s

/-- `_to_flag_from_tramo` (app.py:263-271). -/
def _to_flag_from_tramo (x : Option PyStr) : Option PyStr :=
  match x with
  | none => none
  | some s =>
    let sx := pyLower (pyStrip s)
    if containsCp (strCp ("internacional")) sx
        || sx = strCp ("inter") || sx = strCp ("int") then
      some (strCp ("Internacional"))
    else if containsCp (strCp ("nacional")) sx
        || sx = strCp ("nac") || sx = strCp ("nacional") then
      some (strCp ("Nacional"))
    else none

/-- Insertion step of the sort used to model pandas' key ordering. -/
def insortBy {α : Type} (le : α → α → Bool) (x : α) : List α → List α
  | [] => [x]
  | y :: ys => if le x y then x :: y :: ys else y :: insortBy le x ys

/-- Sort by the given Boolean order. -/
def sortListBy {α : Type} (le : α → α → Bool) (l : List α) : List α :=
  l.foldr (insortBy le) []

/-- Lexicographic order on code-point strings (Python string `<=`). -/
def cpLe : PyStr → PyStr → Bool
  | [], _ => true
  | _ :: _, [] => false
  | a :: as, b :: bs => if a < b then true else if b < a then false else cpLe as bs

/-- `series.dropna()` over an optional-valued column. -/
def seriesDropNa (xs : List (Option PyStr)) : List PyStr := xs.filterMap id

/-- `df.groupby(key).size().reset_index(...)`: one row per distinct non-missing
key, keys sorted ascending (pandas `sort=True`), value = occurrence count. -/
def groupbySize (xs : List (Option PyStr)) : List (PyStr × Nat) :=
  (sortListBy cpLe (seriesDropNa xs).dedup).map
    (fun k => (k, (seriesDropNa xs).count k))

/-- Descending-by-count comparison of `sort_values("reclamos", ascending=False)`. -/
def countDesc (p q : PyStr × Nat) : Bool := q.2 ≤ p.2

/-- `cat_counts` (app.py:313): category group sizes, sorted descending by count. -/
def cat_counts (xs : List (Option PyStr)) : List (PyStr × Nat) :=
  sortListBy countDesc (groupbySize xs)

/-- `air_counts` (app.py:328): airline group sizes, sorted descending by count. -/
def air_counts (xs : List (Option PyStr)) : List (PyStr × Nat) :=
  sortListBy countDesc (groupbySize xs)

/-- The weekday summary (app.py:342): `df_f.groupby("dia_semana").size()`,
with no further sorting applied. -/
def dia_semana_counts (xs : List (Option PyStr)) : List (PyStr × Nat) :=
  groupbySize xs

/-- The `dow_map` of app.py:277-280 (English day name → Spanish). -/
def dow_map : List (PyStr × PyStr) :=
  [(strCp ("Monday"), strCp ("Lunes")), (strCp ("Tuesday"), strCp ("Martes")),
   (strCp ("Wednesday"), strCp ("Miércoles")), (strCp ("Thursday"), strCp ("Jueves")),
   (strCp ("Friday"), strCp ("Viernes")), (strCp ("Saturday"), strCp ("Sábado")),
   (strCp ("Sunday"), strCp ("Domingo"))]

/-- Position of a Spanish weekday name in the calendar week (Monday = 0). -/
def dayIdxCp (s : PyStr) : Nat :=
  ((([(strCp ("Lunes"), 0), (strCp ("Martes"), 1), (strCp ("Miércoles"), 2),
      (strCp ("Jueves"), 3), (strCp ("Viernes"), 4), (strCp ("Sábado"), 5),
      (strCp ("Domingo"), 6)] : List (PyStr × Nat)).lookup s).getD 7)

/-- Outcome of `requests.get(url, timeout=20)` followed by `raise_for_status()`:
either the transport raised, or a response with a status code and a body. -/
inductive FetchOutcome where
  | transportError : FetchOutcome
  | response (status : Nat) (content : List Nat) : FetchOutcome
deriving DecidableEq

/-- The bounded timeout passed to `requests.get` (app.py:134), in seconds. -/
def requestTimeoutSeconds : Nat := 20

/-- `Response.raise_for_status()` raises exactly for 4xx and 5xx statuses. -/
def raiseForStatusFails (status : Nat) : Bool := 400 ≤ status && status < 600

/-- `fetch_url_bytes` (app.py:132-138): any exception inside the `try` —
transport error or `raise_for_status` — yields `None`; otherwise the body. -/
def fetch_url_bytes (o : FetchOutcome) : Option (List Nat) :=
  match o with
  | .transportError => none
  | .response st content =>
    if raiseForStatusFails st then none else some content

/-- Modelled from the spec: route label construction is not present in
`src/app.py` (the spec describes it for the repository's other variants,
§4.2 item 5): concatenate origin and destination with a separator arrow,
rendering a missing endpoint as a literal placeholder character. -/
def routeEndpoint (e : Option PyStr) : PyStr := e.getD [63]

/-- Modelled from the spec: the route label `origen → destino`, with `?`
standing in for a missing endpoint. -/
def routeLabel (origen destino : Option PyStr) : PyStr :=
  routeEndpoint origen ++ [32, 8594, 32] ++ routeEndpoint destino

/-! ### Helper lemmas -/

theorem dropWhile_isSpace_idem (l : PyStr) :
    (l.dropWhile isSpaceCp).dropWhile isSpaceCp = l.dropWhile isSpaceCp := by
  induction l with
  | nil => rfl
  | cons a l ih =>
    by_cases h : isSpaceCp a = true
    · simp [List.dropWhile_cons, h, ih]
    · simp [List.dropWhile_cons, h]

theorem pyStrip_idem (s : PyStr) : pyStrip (pyStrip s) = pyStrip s := by
  have hstep1 : (pyStrip s).dropWhile isSpaceCp = pyStrip s := by
    cases hu : pyStrip s with
    | nil => rfl
    | cons a r =>
      have hpre : pyStrip s <+: s.dropWhile isSpaceCp := by
        have h1 : (pyStrip s).reverse <:+ (s.dropWhile isSpaceCp).reverse := by
          unfold pyStrip
          rw [List.reverse_reverse]
          exact List.dropWhile_suffix _
        exact ( List.reverse_suffix).mp h1
      have hhead : (s.dropWhile isSpaceCp).head? = some a := by
        rcases hpre with ⟨k, hk⟩
        rw [hu] at hk
        rw [← hk]
        rfl
      have hne : s.dropWhile isSpaceCp ≠ [] := by
        intro hnil
        rw [hnil] at hhead
        cases hhead
      have hfalse : isSpaceCp a = false := by
        have := List.head_dropWhile_not isSpaceCp s hne
        rwa [List.head_eq_iff_head?_eq_some hne |>.mpr hhead] at this
      simp [List.dropWhile_cons, hfalse]
  calc pyStrip (pyStrip s)
      = (((pyStrip s).dropWhile isSpaceCp).reverse.dropWhile isSpaceCp).reverse := rfl
    _ = ((pyStrip s).reverse.dropWhile isSpaceCp).reverse := by rw [hstep1]
    _ = (((s.dropWhile isSpaceCp).reverse.dropWhile isSpaceCp).dropWhile
          isSpaceCp).reverse := by
        unfold pyStrip
        rw [List.reverse_reverse]
    _ = ((s.dropWhile isSpaceCp).reverse.dropWhile isSpaceCp).reverse := by
        rw [dropWhile_isSpace_idem]
    _ = pyStrip s := rfl

theorem dfCols_cleanTextCols (d : DF) : dfCols (cleanTextCols d) = dfCols d := by
  unfold dfCols cleanTextCols
  rw [List.map_map]
  apply List.map_congr_left
  intro c _
  by_cases h : c.1 ∈ textCols <;> simp [h]

theorem mem_dfCols_ensureStep (n : Nat) (d : DF) (col c : PyStr) (h : c ∈ dfCols d) :
    c ∈ dfCols (ensureStep n d col) := by
  unfold ensureStep
  split
  · exact h
  · unfold dfCols at h ⊢
    simp only [List.map_append, List.mem_append]
    exact Or.inl h

theorem mem_dfCols_foldl_ensureStep (n : Nat) :
    ∀ (cols : List PyStr) (d : DF) (c : PyStr), (c ∈ cols ∨ c ∈ dfCols d) →
      c ∈ dfCols (cols.foldl (ensureStep n) d) := by
  intro cols
  induction cols with
  | nil =>
    intro d c h
    rcases h with h | h
    · cases h
    · simpa using h
  | cons col cols ih =>
    intro d c h
    rw [List.foldl_cons]
    apply ih
    rcases h with h | h
    · rcases List.mem_cons.mp h with rfl | h2
      · right
        unfold ensureStep
        split
        · assumption
        · unfold dfCols
          simp
      · left
        exact h2
    · right
      exact mem_dfCols_ensureStep n d col c h

/-! ### Claim theorems (first batch) -/

/-- C1 counterexample: a source table that has a `titulo` column (with one
row) but no `fecha` column loads into a table still lacking the `fecha`
column — `load_df` synthesizes only the other seven core columns, so the
claim that all eight are always present is false. -/
theorem load_df_omits_fecha_cx :
    colFecha ∉ dfCols (load_df (fun _ => Option.none)
      [(strCp ("titulo"), [Value.str (strCp ("x"))])]) := by decide

/-- C1 (amended): after `load_df`, the seven columns of app.py:94
(`categoria`, `aerolinea`, `origen`, `destino`, `titulo`, `url`, `nid`)
are always present, synthesized as all-missing when the source omitted
them; `fecha` is only parsed when present, never synthesized. -/
theorem load_df_core_columns_present (parse : Value → Option Nat) (df : DF) :
    colCategoria ∈ dfCols (load_df parse df) ∧
    colAerolinea ∈ dfCols (load_df parse df) ∧
    colOrigen ∈ dfCols (load_df parse df) ∧
    colDestino ∈ dfCols (load_df parse df) ∧
    colTitulo ∈ dfCols (load_df parse df) ∧
    colUrl ∈ dfCols (load_df parse df) ∧
    colNid ∈ dfCols (load_df parse df) := by
  simp only [load_df, ensureCols]
  refine ⟨?_, ?_, ?_, ?_, ?_, ?_, ?_⟩ <;>
    (rw [dfCols_cleanTextCols];
     exact mem_dfCols_foldl_ensureStep _ _ _ _ (Or.inl (by decide)))

/-- C3 counterexample: a `categoria` cell holding the text `" nan "` (with
surrounding spaces) is loaded as the literal text `"nan"`: the exact-match
replacement of `"nan"` happens before stripping, so the stripped value
escapes it, refuting the claim that no loaded record carries the literal
text `"nan"` in a free-text core field. -/
theorem load_df_literal_nan_cx :
    (colCategoria, [Value.str (strCp ("nan"))]) ∈ load_df (fun _ => Option.none)
      [(strCp ("categoria"), [Value.str (strCp (" nan "))])] := by decide

/-- C3 (amended): `load_df` coerces each free-text core cell to text,
converts the exact text `"nan"` (before stripping) to the missing marker,
and strips the rest: every loaded cell in those fields is the missing
marker or a whitespace-stripped string.  A value such as `" nan "`, which
is not exactly `"nan"` before stripping, survives as the literal text
`"nan"`. -/
theorem load_df_text_cells_clean (parse : Value → Option Nat) (df : DF)
    (p : PyStr × List Value) (hp : p ∈ load_df parse df) (hc : p.1 ∈ textCols)
    (v : Value) (hv : v ∈ p.2) :
    v = Value.na ∨ ∃ s, v = Value.str s ∧ pyStrip s = s := by
  simp only [load_df, cleanTextCols] at hp
  rcases List.mem_map.mp hp with ⟨q, hq, hfq⟩
  by_cases h : q.1 ∈ textCols
  · rw [if_pos h] at hfq
    rw [← hfq] at hv
    rcases List.mem_map.mp hv with ⟨w, hw, hcw⟩
    unfold cleanVal at hcw
    by_cases hn : pyValueStr w = strCp ("nan")
    · rw [if_pos hn] at hcw
      exact Or.inl hcw.symm
    · rw [if_neg hn] at hcw
      exact Or.inr ⟨pyStrip (pyValueStr w), hcw.symm, pyStrip_idem _⟩
  · rw [if_neg h] at hfq
    rw [← hfq] at hc
    exact absurd hc h

/-- C3 witness: a concrete application of the amended theorem. -/
theorem load_df_text_cells_clean_witness :
    Value.str (strCp ("a")) = Value.na ∨
      ∃ s, Value.str (strCp ("a")) = Value.str s ∧ pyStrip s = s :=
  load_df_text_cells_clean (fun _ => Option.none)
    [(strCp ("categoria"), [Value.str (strCp (" a "))])]
    (colCategoria, [Value.str (strCp ("a"))]) (by decide) (by decide)
    (Value.str (strCp ("a"))) (by decide)

/-- C6: `_normalize_text` is a total function of its optional input (it can
never raise); `É`, `e` and `É ` (trailing space) all normalize to `e`, and
nil or empty input yields the empty string. -/
theorem normalize_text_total_accent_case_insensitive :
    _normalize_text (some (strCp ("É"))) = strCp ("e") ∧
    _normalize_text (some (strCp ("e"))) = strCp ("e") ∧
    _normalize_text (some (strCp ("É "))) = strCp ("e") ∧
    _normalize_text none = [] ∧
    _normalize_text (some (strCp (""))) = [] := by decide

/-- C8 (spec-modelled): the route label always contains the arrow
separator, is never the empty string, and two missing endpoints render as
the placeholder/arrow skeleton `? → ?`. -/
theorem routeLabel_skeleton_nonempty (o d : Option PyStr) :
    routeLabel o d ≠ [] ∧ 8594 ∈ routeLabel o d ∧
    routeLabel none none = [63, 32, 8594, 32, 63] := by
  refine ⟨?_, ?_, by decide⟩
  · simp [routeLabel]
  · simp [routeLabel]

/-- C9: `fetch_url_bytes` never propagates a transport exception: a raised
transport error yields `None`, `raise_for_status` on a 4xx/5xx status
yields `None`, the body is returned exactly on non-error statuses, and the
request carries a positive bounded timeout. -/
theorem fetch_url_bytes_never_raises (st : Nat) (c : List Nat) :
    fetch_url_bytes FetchOutcome.transportError = none ∧
    (raiseForStatusFails st = true →
      fetch_url_bytes (FetchOutcome.response st c) = none) ∧
    (fetch_url_bytes (FetchOutcome.response st c) = some c ↔
      raiseForStatusFails st = false) ∧
    0 < requestTimeoutSeconds := by
  refine ⟨rfl, ?_, ?_, by decide⟩
  · intro h
    simp [fetch_url_bytes, h]
  · cases hrs : raiseForStatusFails st <;> simp [fetch_url_bytes, hrs]

/-- C9 witness: a 404 response and a transport error both yield `None`. -/
theorem fetch_url_bytes_never_raises_witness :
    fetch_url_bytes (FetchOutcome.response 404 []) = none :=
  (fetch_url_bytes_never_raises 404 []).2.1 (by decide)
theorem insortBy_perm {α : Type} (le : α → α → Bool) (x : α) (l : List α) :
    List.Perm (insortBy le x l) (x :: l) := by
  induction l with
  | nil => exact List.Perm.refl _
  | cons y ys ih =>
    unfold insortBy
    split
    · exact List.Perm.refl _
    · exact (ih.cons y).trans (List.Perm.swap x y ys)

theorem sortListBy_perm {α : Type} (le : α → α → Bool) (l : List α) :
    List.Perm (sortListBy le l) l := by
  induction l with
  | nil => exact List.Perm.refl _
  | cons a l ih =>
    have : sortListBy le (a :: l) = insortBy le a (sortListBy le l) := rfl
    rw [this]
    exact (insortBy_perm le a (sortListBy le l)).trans (ih.cons a)

theorem count_instBEq_eq (k : PyStr) (l : List PyStr) :
    @List.count PyStr List.instBEq k l =
      @List.count PyStr instBEqOfDecidableEq k l := by
  induction l with
  | nil => rfl
  | cons b t ih =>
    rw [@List.count_cons PyStr List.instBEq,
        @List.count_cons PyStr instBEqOfDecidableEq, ih]
    simp [beq_iff_eq]

theorem groupbySize_snd_sum (xs : List (Option PyStr)) :
    ((groupbySize xs).map Prod.snd).sum = (seriesDropNa xs).length := by
  unfold groupbySize
  rw [List.map_map]
  have hcomp :
      (Prod.snd ∘ fun k => (k, (seriesDropNa xs).count k)) =
        fun k => (seriesDropNa xs).count k := rfl
  rw [hcomp]
  have hperm := (sortListBy_perm cpLe (seriesDropNa xs).dedup).map
    (fun k => (seriesDropNa xs).count k)
  rw [hperm.sum_eq]
  have hc : (List.map (fun k => @List.count PyStr List.instBEq k (seriesDropNa xs))
      (seriesDropNa xs).dedup) =
      (List.map (fun k => @List.count PyStr instBEqOfDecidableEq k (seriesDropNa xs))
      (seriesDropNa xs).dedup) :=
    List.map_congr_left (fun k _ => count_instBEq_eq k (seriesDropNa xs))
  rw [hc]
  exact List.sum_map_count_dedup_eq_length (seriesDropNa xs)

/-- C7: the per-category and per-airline summary counts each sum to the
number of filtered rows whose grouping key is non-missing. -/
theorem summary_counts_sum_to_nonmissing (xs ys : List (Option PyStr)) :
    ((cat_counts xs).map Prod.snd).sum = (seriesDropNa xs).length ∧
    ((air_counts ys).map Prod.snd).sum = (seriesDropNa ys).length := by
  have key : ∀ zs : List (Option PyStr),
      ((sortListBy countDesc (groupbySize zs)).map Prod.snd).sum =
        (seriesDropNa zs).length := by
    intro zs
    have hp := (sortListBy_perm countDesc (groupbySize zs)).map Prod.snd
    rw [hp.sum_eq]
    exact groupbySize_snd_sum zs
  exact ⟨key xs, key ys⟩

/-- C2: the sidebar filter block is conjunctive: a row survives exactly when
its airline passes (filter empty or value selected), its category passes,
and its date lies in the closed interval when a range is set; rows with a
missing value in a actively filtered field drop out. -/
theorem filters_conjunctive (aerSel catSel : List PyStr) (rango : Option (Nat × Nat))
    (rows : List FilterRow) (r : FilterRow) :
    r ∈ applyFilters aerSel catSel rango rows ↔
      r ∈ rows ∧
      (aerSel = [] ∨ ∃ a, r.aerolinea = some a ∧ a ∈ aerSel) ∧
      (catSel = [] ∨ ∃ c, r.categoria = some c ∧ c ∈ catSel) ∧
      (rango = none ∨ ∃ lo hi d, rango = some (lo, hi) ∧ r.fecha = some d ∧
        lo ≤ d ∧ d ≤ hi) := by
  obtain ⟨ra, rc, rf⟩ := r
  by_cases ha : aerSel = [] <;> by_cases hc : catSel = [] <;>
    rcases rango with _ | ⟨lo, hi⟩ <;>
    cases ra <;> cases rc <;> cases rf <;>
    simp_all [applyFilters, List.mem_filter] <;> aesop

theorem cpLe_total (a : PyStr) : ∀ b : PyStr, cpLe a b = true ∨ cpLe b a = true := by
  induction a with
  | nil => intro b; exact Or.inl rfl
  | cons x xs ih =>
    intro b
    cases b with
    | nil => exact Or.inr rfl
    | cons y ys =>
      unfold cpLe
      by_cases h1 : x < y
      · left; simp [h1]
      · by_cases h2 : y < x
        · right; simp [h2]
        · have hxy : x = y := by omega
          subst hxy
          simpa [h1] using ih ys

theorem chain'_insort_cons {α : Type} (le : α → α → Bool)
    (htot : ∀ a b, le a b = true ∨ le b a = true) :
    ∀ (l : List α) (y x : α), le y x = true →
      List.Chain' (fun a b => le a b = true) (y :: l) →
      List.Chain' (fun a b => le a b = true) (y :: insortBy le x l) := by
  intro l
  induction l with
  | nil =>
    intro y x hyx _
    exact List.chain'_cons.mpr ⟨hyx, List.chain'_singleton x⟩
  | cons z zs ih =>
    intro y x hyx h
    unfold insortBy
    split
    · rename_i hxz
      rcases List.chain'_cons.mp h with ⟨hyz, hz⟩
      exact List.chain'_cons.mpr ⟨hyx, List.chain'_cons.mpr ⟨hxz, hz⟩⟩
    · rename_i hxz
      have hzx : le z x = true := by
        rcases htot x z with h1 | h1
        · exact absurd h1 hxz
        · exact h1
      rcases List.chain'_cons.mp h with ⟨hyz, hz⟩
      exact List.chain'_cons.mpr ⟨hyz, ih z x hzx hz⟩

theorem chain'_sortListBy {α : Type} (le : α → α → Bool)
    (htot : ∀ a b, le a b = true ∨ le b a = true) (l : List α) :
    List.Chain' (fun a b => le a b = true) (sortListBy le l) := by
  induction l with
  | nil => exact List.chain'_nil
  | cons a l ih =>
    have heq : sortListBy le (a :: l) = insortBy le a (sortListBy le l) := rfl
    rw [heq]
    cases hs : sortListBy le l with
    | nil => exact List.chain'_singleton a
    | cons y ys =>
      rw [hs] at ih
      unfold insortBy
      split
      · rename_i hay
        exact List.chain'_cons.mpr ⟨hay, ih⟩
      · rename_i hay
        have hya : le y a = true := by
          rcases htot a y with h1 | h1
          · exact absurd h1 hay
          · exact h1
        exact chain'_insort_cons le htot ys y a hya ih

/-- C4 counterexample: with one Monday (`Lunes`) row and one Sunday
(`Domingo`) row, the weekday summary comes out `[(Domingo, 1), (Lunes, 1)]`
— pandas `groupby` sorts the Spanish weekday names alphabetically — which
violates the claimed fixed calendar-week Monday-through-Sunday order. -/
theorem dia_semana_order_cx :
    ¬ List.Pairwise (fun p q => dayIdxCp p.1 ≤ dayIdxCp q.1)
      (dia_semana_counts [some (strCp ("Lunes")), some (strCp ("Domingo"))]) := by
  decide

/-- C4 (amended): the weekday summary is ordered ascending by the Spanish
weekday NAME (lexicographic on code points — the `groupby` default key
sort), not in calendar-week order; no count sort is applied to it, unlike
the category and airline summaries. -/
theorem dia_semana_counts_sorted_by_name (xs : List (Option PyStr)) :
    List.Chain' (fun p q => cpLe p.1 q.1 = true) (dia_semana_counts xs) := by
  unfold dia_semana_counts groupbySize
  rw [List.chain'_map]
  exact chain'_sortListBy cpLe cpLe_total _

theorem isPrefixOf_eq_true_iff (t : PyStr) :
    ∀ s : PyStr, t.isPrefixOf s = true ↔ t <+: s := by
  induction t with
  | nil => intro s; simp [List.isPrefixOf]
  | cons a t ih =>
    intro s
    cases s with
    | nil => simp [List.isPrefixOf]
    | cons b s =>
      simp only [List.isPrefixOf, Bool.and_eq_true, beq_iff_eq, ih s,
        List.cons_prefix_cons]

theorem isSub_cons_iff (t : PyStr) (b : Nat) (s : PyStr) :
    t <:+: (b :: s) ↔ t <+: (b :: s) ∨ t <:+: s := by
  constructor
  · rintro ⟨u, v, huv⟩
    cases u with
    | nil => exact Or.inl ⟨v, by simpa using huv⟩
    | cons x u' =>
      right
      rw [List.cons_append, List.cons_append] at huv
      rcases List.cons.inj huv with ⟨-, h2⟩
      exact ⟨u', v, h2⟩
  · rintro (⟨v, hv⟩ | ⟨u, v, huv⟩)
    · exact ⟨[], v, by simpa using hv⟩
    · exact ⟨b :: u, v, by rw [← huv]; simp⟩

theorem containsCp_eq_true_iff (t : PyStr) :
    ∀ s : PyStr, containsCp t s = true ↔ t <:+: s := by
  intro s
  induction s with
  | nil =>
    simp only [containsCp, List.isEmpty_iff]
    constructor
    · rintro rfl
      exact ⟨[], [], rfl⟩
    · rintro ⟨u, v, huv⟩
      have := List.append_eq_nil.mp huv
      exact (List.append_eq_nil.mp this.1).2
  | cons b s ih =>
    simp only [containsCp, Bool.or_eq_true, ih, isPrefixOf_eq_true_iff,
      isSub_cons_iff]

theorem isSub_dropWhile (p : Nat → Bool) (t : PyStr)
    (ht : ∀ c ∈ t, p c = false) :
    ∀ s : PyStr, t <:+: s → t <:+: s.dropWhile p := by
  intro s
  induction s with
  | nil => intro h; simpa using h
  | cons a s ih =>
    intro h
    by_cases hp : p a = true
    · rw [List.dropWhile_cons, if_pos hp]
      apply ih
      rcases h with ⟨u, v, huv⟩
      cases u with
      | nil =>
        cases t with
        | nil => exact ⟨[], s, rfl⟩
        | cons c t' =>
          rw [List.nil_append, List.cons_append] at huv
          rcases List.cons.inj huv with ⟨rfl, -⟩
          exact absurd hp (by simp [ht c (by simp)])
      | cons x u' =>
        rw [List.cons_append, List.cons_append] at huv
        rcases List.cons.inj huv with ⟨-, h2⟩
        exact ⟨u', v, h2⟩
    · rw [List.dropWhile_cons, if_neg hp]
      exact h

theorem isSub_pyStrip (t : PyStr) (ht : ∀ c ∈ t, isSpaceCp c = false)
    (s : PyStr) (h : t <:+: s) : t <:+: pyStrip s := by
  unfold pyStrip
  have h1 : t <:+: s.dropWhile isSpaceCp := isSub_dropWhile _ t ht s h
  have h2 : t.reverse <:+: (s.dropWhile isSpaceCp).reverse := by
    rcases h1 with ⟨u, v, huv⟩
    refine ⟨v.reverse, u.reverse, ?_⟩
    rw [← huv]
    simp [List.append_assoc]
  have h3 : t.reverse <:+: ((s.dropWhile isSpaceCp).reverse.dropWhile isSpaceCp) :=
    isSub_dropWhile _ t.reverse
      (fun c hc => ht c (List.mem_reverse.mp hc)) _ h2
  rcases h3 with ⟨u, v, huv⟩
  refine ⟨v.reverse, u.reverse, ?_⟩
  rw [← huv]
  simp [List.append_assoc]

theorem isSub_pyLower (t s : PyStr) (hfix : pyLower t = t) (h : t <:+: s) :
    t <:+: pyLower s := by
  rcases h with ⟨u, v, huv⟩
  refine ⟨pyLower u, pyLower v, ?_⟩
  rw [← huv]
  unfold pyLower
  rw [List.map_append, List.map_append]
  rw [show List.map lowerCp t = t from hfix]

/-- C10: `_to_flag_from_tramo` tests `internacional` before `nacional`:
any input containing `internacional` is flagged `Internacional` (never
`Nacional`); missing input stays missing; input matching neither test
yields the missing marker. -/
theorem tramo_internacional_before_nacional (s : PyStr) :
    (strCp ("internacional") <:+: s →
      _to_flag_from_tramo (some s) = some (strCp ("Internacional"))) ∧
    _to_flag_from_tramo none = none ∧
    (containsCp (strCp ("internacional")) (pyLower (pyStrip s)) = false →
     pyLower (pyStrip s) ≠ strCp ("inter") →
     pyLower (pyStrip s) ≠ strCp ("int") →
     containsCp (strCp ("nacional")) (pyLower (pyStrip s)) = false →
     pyLower (pyStrip s) ≠ strCp ("nac") →
     pyLower (pyStrip s) ≠ strCp ("nacional") →
      _to_flag_from_tramo (some s) = none) := by
  refine ⟨?_, rfl, ?_⟩
  · intro h
    have hws : ∀ c ∈ strCp ("internacional"), isSpaceCp c = false := by decide
    have h1 : strCp ("internacional") <:+: pyStrip s := isSub_pyStrip _ hws s h
    have hfix : pyLower (strCp ("internacional")) = strCp ("internacional") := by
      decide
    have h2 : strCp ("internacional") <:+: pyLower (pyStrip s) :=
      isSub_pyLower _ _ hfix h1
    have hc : containsCp (strCp ("internacional")) (pyLower (pyStrip s)) = true :=
      (containsCp_eq_true_iff _ _).mpr h2
    unfold _to_flag_from_tramo
    simp [hc]
  · intro h1 h2 h3 h4 h5 h6
    unfold _to_flag_from_tramo
    simp [h1, h2, h3, h4, h5, h6]

/-- C10 witness: concrete inputs through both branches of the theorem. -/
theorem tramo_internacional_before_nacional_witness :
    _to_flag_from_tramo (some (strCp ("Vuelo internacional X"))) =
      some (strCp ("Internacional")) ∧
    _to_flag_from_tramo (some (strCp ("otro"))) = none :=
  ⟨(tramo_internacional_before_nacional (strCp ("Vuelo internacional X"))).1
      (by decide),
   (tramo_internacional_before_nacional (strCp ("otro"))).2.2 (by decide)
      (by decide) (by decide) (by decide) (by decide) (by decide)⟩

/-! ### Idempotence of column-name normalization (C5) -/

theorem lowerCp_idem (n : Nat) : lowerCp (lowerCp n) = lowerCp n := by
  unfold lowerCp
  split_ifs <;> omega

theorem alnum_not_space (n : Nat) (h : isAlnumCp n = true) : isSpaceCp n = false := by
  unfold isAlnumCp at h
  unfold isSpaceCp
  simp only [Bool.or_eq_true, Bool.and_eq_true, decide_eq_true_eq, beq_iff_eq,
    bne_iff_ne, ne_eq] at h
  simp only [Bool.or_eq_false_iff, beq_eq_false_iff_ne, ne_eq]
  omega

theorem lookup_mem {α β : Type} [BEq α] [LawfulBEq α] {l : List (α × β)}
    {k : α} {b : β} (h : l.lookup k = some b) : (k, b) ∈ l := by
  rcases List.lookup_eq_some_iff.mp h with ⟨l₁, l₂, rfl, -⟩
  simp

theorem nfkd_image_canon (m : Nat) (hm : lowerCp m = m) :
    ∀ n ∈ nfkdCp m, combiningCp n = false → isAlnumCp n = true → canonCp n := by
  intro n hn hcomb halnum
  unfold nfkdCp at hn
  cases hl : nfkdTable.lookup m with
  | none =>
    rw [hl] at hn
    simp only [Option.getD_none, List.mem_singleton] at hn
    subst hn
    refine ⟨hm, ?_, hcomb, alnum_not_space _ halnum⟩
    unfold nfkdCp
    rw [hl]
    rfl
  | some v =>
    rw [hl] at hn
    simp only [Option.getD_some] at hn
    have hmem : (m, v) ∈ nfkdTable := lookup_mem hl
    have key : ∀ p ∈ nfkdTable, ∀ x ∈ p.2, combiningCp x = true ∨
        isAlnumCp x = false ∨ canonCp x := by decide
    rcases key _ hmem n hn with h | h | h
    · rw [h] at hcomb
      cases hcomb
    · rw [h] at halnum
      cases halnum
    · exact h

theorem mem_normalize_text (s : PyStr) (n : Nat)
    (hn : n ∈ _normalize_text (some s)) :
    combiningCp n = false ∧ ∃ m, lowerCp m = m ∧ n ∈ nfkdCp m := by
  unfold _normalize_text at hn
  rcases List.mem_filter.mp hn with ⟨hmem, hfilt⟩
  have hcomb : combiningCp n = false := by simpa using hfilt
  rcases List.mem_flatMap.mp hmem with ⟨c, hc, hnc⟩
  rcases List.mem_map.mp (by simpa [pyLower] using hc :
    c ∈ List.map lowerCp (pyStrip s)) with ⟨c0, -, rfl⟩
  exact ⟨hcomb, lowerCp c0, lowerCp_idem c0, hnc⟩

theorem splitUnders_ne_nil (s : PyStr) : splitUnders s ≠ [] := by
  induction s with
  | nil => simp [splitUnders]
  | cons c rest ih =>
    unfold splitUnders
    split
    · simp
    · split <;> simp

theorem mem_splitUnders (s : PyStr) :
    ∀ seg ∈ splitUnders s, ∀ n ∈ seg, n ∈ s ∧ n ≠ 95 := by
  induction s with
  | nil =>
    intro seg hseg n hn
    simp only [splitUnders, List.mem_singleton] at hseg
    subst hseg
    cases hn
  | cons c rest ih =>
    intro seg hseg n hn
    by_cases hc : c = 95
    · subst hc
      simp only [splitUnders, beq_self_eq_true, if_true] at hseg
      rcases List.mem_cons.mp hseg with rfl | hseg2
      · cases hn
      · rcases ih seg hseg2 n hn with ⟨h1, h2⟩
        exact ⟨List.mem_cons_of_mem _ h1, h2⟩
    · have hbeq : (c == 95) = false := by simp [hc]
      simp only [splitUnders, hbeq, Bool.false_eq_true, if_false] at hseg
      cases hr : splitUnders rest with
      | nil => exact absurd hr (splitUnders_ne_nil rest)
      | cons s0 ss =>
        rw [hr] at hseg
        rcases List.mem_cons.mp hseg with rfl | hseg2
        · rcases List.mem_cons.mp hn with rfl | hn2
          · exact ⟨List.mem_cons_self _ _, hc⟩
          · have hs0 : s0 ∈ splitUnders rest := by
              rw [hr]
              simp
            rcases ih s0 hs0 n hn2 with ⟨h1, h2⟩
            exact ⟨List.mem_cons_of_mem _ h1, h2⟩
        · have hss : seg ∈ splitUnders rest := by
            rw [hr]
            exact List.mem_cons_of_mem _ hseg2
          rcases ih seg hss n hn with ⟨h1, h2⟩
          exact ⟨List.mem_cons_of_mem _ h1, h2⟩

theorem mem_joinUnders (segs : List PyStr) :
    ∀ n, n ∈ joinUnders segs → n = 95 ∨ ∃ seg ∈ segs, n ∈ seg := by
  induction segs with
  | nil =>
    intro n hn
    cases hn
  | cons seg rest ih =>
    intro n hn
    cases rest with
    | nil => exact Or.inr ⟨seg, by simp, hn⟩
    | cons s2 rest2 =>
      rw [show joinUnders (seg :: s2 :: rest2) =
        seg ++ 95 :: joinUnders (s2 :: rest2) from rfl] at hn
      rcases List.mem_append.mp hn with h | h
      · exact Or.inr ⟨seg, by simp, h⟩
      · rcases List.mem_cons.mp h with rfl | h2
        · exact Or.inl rfl
        · rcases ih n h2 with h3 | ⟨seg', hseg', hn'⟩
          · exact Or.inl h3
          · exact Or.inr ⟨seg', List.mem_cons_of_mem _ hseg', hn'⟩

theorem splitUnders_no_under (seg : PyStr) (h : 95 ∉ seg) :
    splitUnders seg = [seg] := by
  induction seg with
  | nil => rfl
  | cons c s ih =>
    have hc : c ≠ 95 := fun hc => h (hc ▸ List.mem_cons_self _ _)
    have hbeq : (c == 95) = false := by simp [hc]
    have hs : splitUnders s = [s] := ih (fun hm => h (List.mem_cons_of_mem _ hm))
    simp only [splitUnders, hbeq, Bool.false_eq_true, if_false, hs]

theorem splitUnders_append_under (seg : PyStr) (h : 95 ∉ seg) (t : PyStr) :
    splitUnders (seg ++ 95 :: t) = seg :: splitUnders t := by
  induction seg with
  | nil => simp only [List.nil_append, splitUnders, beq_self_eq_true, if_true]
  | cons c s ih =>
    have hc : c ≠ 95 := fun hc => h (hc ▸ List.mem_cons_self _ _)
    have hbeq : (c == 95) = false := by simp [hc]
    have hs := ih (fun hm => h (List.mem_cons_of_mem _ hm))
    simp only [List.cons_append, splitUnders, hbeq, Bool.false_eq_true, if_false,
      List.append_eq, hs]

theorem splitUnders_joinUnders (segs : List PyStr) :
    segs ≠ [] → (∀ seg ∈ segs, 95 ∉ seg) →
      splitUnders (joinUnders segs) = segs := by
  induction segs with
  | nil => intro hne _; exact absurd rfl hne
  | cons seg rest ih =>
    intro _ h95
    cases rest with
    | nil => exact splitUnders_no_under seg (h95 seg (by simp))
    | cons s2 rest2 =>
      rw [show joinUnders (seg :: s2 :: rest2) =
        seg ++ 95 :: joinUnders (s2 :: rest2) from rfl]
      rw [splitUnders_append_under seg (h95 seg (by simp))]
      rw [ih (by simp) (fun sg hsg => h95 sg (List.mem_cons_of_mem _ hsg))]

theorem collapseUnders_idem (s : PyStr) :
    collapseUnders (collapseUnders s) = collapseUnders s := by
  by_cases hcase : (splitUnders s).filter (fun seg => !seg.isEmpty) = []
  · unfold collapseUnders
    rw [hcase]
    rfl
  · have h95 : ∀ seg ∈ (splitUnders s).filter (fun seg => !seg.isEmpty), 95 ∉ seg :=
      fun seg hseg hn =>
        (mem_splitUnders s seg (List.mem_filter.mp hseg).1 95 hn).2 rfl
    show collapseUnders
      (joinUnders ((splitUnders s).filter (fun seg => !seg.isEmpty))) = _
    unfold collapseUnders
    rw [splitUnders_joinUnders _ hcase h95]
    rw [List.filter_eq_self.mpr (fun seg hseg => (List.mem_filter.mp hseg).2)]

theorem mem_collapseUnders (s : PyStr) (n : Nat) (hn : n ∈ collapseUnders s) :
    (n ∈ s ∧ n ≠ 95) ∨ n = 95 := by
  unfold collapseUnders at hn
  rcases mem_joinUnders _ n hn with h | ⟨seg, hseg, hn'⟩
  · exact Or.inr h
  · exact Or.inl (mem_splitUnders s seg (List.mem_filter.mp hseg).1 n hn')

theorem map_eq_self_of_fix {α : Type} (f : α → α) :
    ∀ l : List α, (∀ a ∈ l, f a = a) → l.map f = l := by
  intro l h
  induction l with
  | nil => rfl
  | cons a t ih =>
    rw [List.map_cons, h a (by simp), ih (fun b hb => h b (by simp [hb]))]

theorem flatMap_eq_self_of_fix (l : PyStr) (h : ∀ a ∈ l, nfkdCp a = [a]) :
    l.flatMap nfkdCp = l := by
  induction l with
  | nil => rfl
  | cons a t ih =>
    rw [List.flatMap_cons, h a (by simp), ih (fun b hb => h b (by simp [hb]))]
    rfl

theorem pyStrip_eq_self (s : PyStr) (h : ∀ n ∈ s, isSpaceCp n = false) :
    pyStrip s = s := by
  have h1 : s.dropWhile isSpaceCp = s := by
    cases s with
    | nil => rfl
    | cons a l => rw [List.dropWhile_cons, if_neg (by simp [h a (by simp)])]
  have h2 : s.reverse.dropWhile isSpaceCp = s.reverse := by
    cases hr : s.reverse with
    | nil => rfl
    | cons a l =>
      have ha : a ∈ s := List.mem_reverse.mp (by rw [hr]; simp)
      rw [List.dropWhile_cons, if_neg (by simp [h a ha])]
  unfold pyStrip
  rw [h1, h2, List.reverse_reverse]

theorem normalize_text_eq_self (u : PyStr) (h : ∀ n ∈ u, canonCp n) :
    _normalize_text (some u) = u := by
  show ((pyLower (pyStrip u)).flatMap nfkdCp).filter (fun c => !combiningCp c) = u
  have hs : pyStrip u = u := pyStrip_eq_self u (fun n hn => (h n hn).2.2.2)
  rw [hs]
  have hl : pyLower u = u := map_eq_self_of_fix lowerCp u (fun n hn => (h n hn).1)
  rw [hl]
  have hf : u.flatMap nfkdCp = u := flatMap_eq_self_of_fix u (fun n hn => (h n hn).2.1)
  rw [hf]
  exact List.filter_eq_self.mpr (fun n hn => by simp [(h n hn).2.2.1])

theorem underscorify_eq_self (u : PyStr)
    (h : ∀ n ∈ u, isAlnumCp n = true ∨ n = 95) : underscorify u = u := by
  unfold underscorify
  apply map_eq_self_of_fix
  intro a ha
  rcases h a ha with h1 | rfl
  · rw [if_pos h1]
  · decide

theorem mem_canonOf (name : PyStr) (n : Nat) (hn : n ∈ canonOf name) :
    canonCp n ∧ (isAlnumCp n = true ∨ n = 95) := by
  unfold canonOf at hn
  rcases mem_collapseUnders _ n hn with ⟨hmem, hne⟩ | rfl
  · unfold underscorify at hmem
    rcases List.mem_map.mp hmem with ⟨c, hc, hceq⟩
    by_cases hcal : isAlnumCp c = true
    · rw [if_pos hcal] at hceq
      subst hceq
      rcases mem_normalize_text _ c hc with ⟨hcomb, m, hm, hnm⟩
      exact ⟨nfkd_image_canon m hm c hnm hcomb hcal, Or.inl hcal⟩
    · rw [if_neg hcal] at hceq
      exact absurd hceq.symm hne
  · exact ⟨by decide, Or.inr rfl⟩

theorem canonOf_canonOf (name : PyStr) : canonOf (canonOf name) = canonOf name := by
  have h1 : _normalize_text (some (canonOf name)) = canonOf name :=
    normalize_text_eq_self _ (fun n hn => (mem_canonOf name n hn).1)
  have h2 : underscorify (canonOf name) = canonOf name :=
    underscorify_eq_self _ (fun n hn => (mem_canonOf name n hn).2)
  show collapseUnders (underscorify (_normalize_text (some (canonOf name)))) =
    canonOf name
  rw [h1, h2]
  show collapseUnders
    (collapseUnders (underscorify (_normalize_text (some name)))) = canonOf name
  rw [collapseUnders_idem]
  rfl

theorem synonyms_values_fixed : ∀ p ∈ synonyms, _normalize_colname p.2 = p.2 := by
  decide

/-- C5: `_normalize_colname` is idempotent: applied to a name it already
returned, it yields that name unchanged (every synonym-table target is a
fixed point, and the pre-lookup canonical form is stable). -/
theorem normalize_colname_idempotent (name : PyStr) :
    _normalize_colname (_normalize_colname name) = _normalize_colname name := by
  rw [show _normalize_colname name =
    (synonyms.lookup (canonOf name)).getD (canonOf name) from rfl]
  cases hl : synonyms.lookup (canonOf name) with
  | none =>
    simp only [Option.getD_none]
    rw [show _normalize_colname (canonOf name) =
      (synonyms.lookup (canonOf (canonOf name))).getD (canonOf (canonOf name))
      from rfl]
    rw [canonOf_canonOf, hl]
    rfl
  | some v =>
    simp only [Option.getD_some]
    have hmem : (canonOf name, v) ∈ synonyms := lookup_mem hl
    exact synonyms_values_fixed (canonOf name, v) hmem
